import Mathlib

/-!
Verification of the `kylycht/exchange` rate cache and its aggregation engine.

Shallow embedding of the Go source:
- Go `map[string]T` becomes an association list `List (String × T)`; map
  assignment becomes `mapInsert` (replace-or-add), map indexing becomes
  `List.lookup`.
- `float64` rates become `ℚ` (the spec has no floating-point precision goals;
  every rate value a claim mentions is returned symbolically by the code,
  never rounded).
- channels become the ordered list of values received before the channel
  closes; context deadlines become an explicit fuel budget (number of loop
  iterations until `ctx.Done()` fires).
- fallible Go calls become `Except String` values; external collaborators
  (the persistence storage, the HTTP transport) become explicit parameters
  holding their already-produced result.
-/

/-- The unexported `currency` type of `model/currency.go`: the two currency
type tags `FIAT` and `CRYPTO`. -/
inductive CurrencyType where
  | Fiat
  | Crypto
deriving DecidableEq, Repr

/-- `model.Currency`: name, symbol and type of a currency. -/
structure Currency where
  Name : String
  Symbol : String
  CurrencyType : CurrencyType
deriving DecidableEq, Repr

/-- `model.ExchangeRate`: base currency, target currency and the rate. -/
structure ExchangeRate where
  Base : Currency
  Target : Currency
  Rate : ℚ
deriving DecidableEq, Repr

/-- Inner level of a rate table: `map[string]float64`. -/
abbrev RatesMap := List (String × ℚ)

/-- A two-level rate table `map[string]map[string]float64`. -/
abbrev RateTable := List (String × RatesMap)

/-- Go map assignment `m[k] = v`: replace the binding of `k` if present,
otherwise add it. -/
def mapInsert (m : List (String × α)) (k : String) (v : α) : List (String × α) :=
  (k, v) :: m.filter (fun p => p.1 ≠ k)

/-- `strings.ToUpper` restricted to ASCII symbols (all currency symbols in
this system are ASCII): upper-case every character. -/
def toUpper (s : String) : String :=
  ⟨s.data.map Char.toUpper⟩

/-- Whether a two-level table has an entry at `tbl[a][b]`. -/
def hasEntry (tbl : RateTable) (a b : String) : Bool :=
  match List.lookup a tbl with
  | none => false
  | some inner => (List.lookup b inner).isSome

/-- The mutable state of `cache.MCache`: the two lookup tables guarded by the
lock (the lock itself, ticker and collaborator handles carry no data the
claims are about). -/
structure MCache where
  cryptoToFiat : RateTable
  fiatToCrypto : RateTable
deriving DecidableEq, Repr

/-- The body of the first branch of `MCache.Get` ("lookup as C2F", cache.go
lines 49-70): direct `cryptoToFiat[from][to]` hit, else — still inside the
`cryptoToFiat[from]` guard — the reciprocal derivation from
`fiatToCrypto[to][from]`.  Returns `none` when the branch falls through. -/
def c2fLookup (m : MCache) (f t : String) : Option ExchangeRate :=
  match List.lookup f m.cryptoToFiat with
  | none => none
  | some ratesMap =>
    match List.lookup t ratesMap with
    | some rate =>
      some ⟨⟨"", f, .Crypto⟩, ⟨"", t, .Fiat⟩, rate⟩
    | none =>
      match List.lookup t m.fiatToCrypto with
      | none => none
      | some fiatsRates =>
        match List.lookup f fiatsRates with
        | some rate =>
          some ⟨⟨"", f, .Crypto⟩, ⟨"", t, .Fiat⟩, 1 / rate⟩
        | none => none

/-- The body of the second branch of `MCache.Get` ("lookup as F2C", cache.go
lines 72-91): direct `fiatToCrypto[from][to]` hit, else the reciprocal
derivation from `cryptoToFiat[to][from]`. -/
def f2cLookup (m : MCache) (f t : String) : Option ExchangeRate :=
  match List.lookup f m.fiatToCrypto with
  | none => none
  | some ratesMap =>
    match List.lookup t ratesMap with
    | some rate =>
      some ⟨⟨"", f, .Fiat⟩, ⟨"", t, .Crypto⟩, rate⟩
    | none =>
      match List.lookup t m.cryptoToFiat with
      | none => none
      | some rates =>
        match List.lookup f rates with
        | some rate =>
          some ⟨⟨"", f, .Fiat⟩, ⟨"", t, .Crypto⟩, 1 / rate⟩
        | none => none

/-- `MCache.Get` (cache.go lines 41-94): upper-case both symbols, try the
C2F branch, fall through to the F2C branch, otherwise fail naming the
pair. -/
def MCache.Get (m : MCache) (from_ to_ : String) : Except String ExchangeRate :=
  let f := toUpper from_
  let t := toUpper to_
  match c2fLookup m f t with
  | some er => .ok er
  | none =>
    match f2cLookup m f t with
    | some er => .ok er
    | none => .error ("invalid conversion for pair: " ++ f ++ "/" ++ t)

deriving instance DecidableEq for Except

/-- A cache where `fiatToCrypto["USD"]["BTC"]` is present but `"BTC"` is not a
base key of `cryptoToFiat` at all. -/
def c1cex : MCache :=
  ⟨[], [("USD", [("BTC", 2)])]⟩

/-- A cache holding a direct `fiatToCrypto["AAA"]["BBB"]` entry while `"AAA"`
is also a `cryptoToFiat` base (without a `"BBB"` target) and
`fiatToCrypto["BBB"]["AAA"]` is present. -/
def c4cex : MCache :=
  ⟨[("AAA", [("XXX", 7)])], [("AAA", [("BBB", 5)]), ("BBB", [("AAA", 4)])]⟩

/-- C5: a direct `cryptoToFiat` hit (after upper-casing) is returned exactly,
tagged crypto-base / fiat-target. -/
theorem get_direct_c2f (m : MCache) (from_ to_ : String) (rm : RatesMap) (rate : ℚ)
    (hm : List.lookup (toUpper from_) m.cryptoToFiat = some rm)
    (hr : List.lookup (toUpper to_) rm = some rate) :
    MCache.Get m from_ to_ =
      .ok ⟨⟨"", toUpper from_, .Crypto⟩, ⟨"", toUpper to_, .Fiat⟩, rate⟩ := by
  simp only [MCache.Get, c2fLookup, hm, hr]

/-- Witness for C5 at a concrete cache. -/
theorem get_direct_c2f_witness :
    List.lookup (toUpper "btc") (MCache.mk [("BTC", [("USD", 50000)])] []).cryptoToFiat =
        some [("USD", 50000)] ∧
    MCache.Get ⟨[("BTC", [("USD", 50000)])], []⟩ "btc" "usd" =
      .ok ⟨⟨"", toUpper "btc", .Crypto⟩, ⟨"", toUpper "usd", .Fiat⟩, 50000⟩ :=
  ⟨by decide,
   get_direct_c2f ⟨[("BTC", [("USD", 50000)])], []⟩ "btc" "usd" [("USD", 50000)] 50000
     (by decide) (by decide)⟩

/-- C1 counterexample: `cryptoToFiat` has no direct `("BTC","USD")` entry while
`fiatToCrypto["USD"]["BTC"] = 2` is present, yet `Get "BTC" "USD"` fails
instead of returning the reciprocal `1/2` — the reciprocal derivation only
fires when `from` is itself a base key of `cryptoToFiat`. -/
theorem get_reciprocal_c2f_cex :
    hasEntry c1cex.cryptoToFiat "BTC" "USD" = false ∧
    List.lookup "USD" c1cex.fiatToCrypto = some [("BTC", 2)] ∧
    MCache.Get c1cex "BTC" "USD" = .error "invalid conversion for pair: BTC/USD" :=
  ⟨rfl, rfl, rfl⟩

/-- C1 amended: when `from` (upper-cased) IS a base key of `cryptoToFiat` whose
inner map lacks `to`, and `fiatToCrypto[to][from] = r` is present, `Get`
returns the reciprocal `1/r` tagged crypto-base / fiat-target. -/
theorem get_reciprocal_c2f (m : MCache) (from_ to_ : String) (rm fm : RatesMap) (r : ℚ)
    (hc : List.lookup (toUpper from_) m.cryptoToFiat = some rm)
    (hmiss : List.lookup (toUpper to_) rm = none)
    (hf : List.lookup (toUpper to_) m.fiatToCrypto = some fm)
    (hr : List.lookup (toUpper from_) fm = some r) :
    MCache.Get m from_ to_ =
      .ok ⟨⟨"", toUpper from_, .Crypto⟩, ⟨"", toUpper to_, .Fiat⟩, 1 / r⟩ := by
  simp only [MCache.Get, c2fLookup, hc, hmiss, hf, hr]

/-- Witness for the amended C1 at a concrete cache. -/
theorem get_reciprocal_c2f_witness :
    List.lookup (toUpper "BTC") (MCache.mk [("BTC", [("EUR", 40000)])]
        [("USD", [("BTC", 2)])]).cryptoToFiat = some [("EUR", 40000)] ∧
    List.lookup (toUpper "USD") [("EUR", (40000 : ℚ))] = none ∧
    MCache.Get ⟨[("BTC", [("EUR", 40000)])], [("USD", [("BTC", 2)])]⟩ "BTC" "USD" =
      .ok ⟨⟨"", toUpper "BTC", .Crypto⟩, ⟨"", toUpper "USD", .Fiat⟩, 1 / 2⟩ :=
  ⟨by decide, by decide,
   get_reciprocal_c2f ⟨[("BTC", [("EUR", 40000)])], [("USD", [("BTC", 2)])]⟩
     "BTC" "USD" [("EUR", 40000)] [("BTC", 2)] 2
     (by decide) (by decide) (by decide) (by decide)⟩

/-- C4 counterexample: a direct `fiatToCrypto["AAA"]["BBB"] = 5` entry exists,
yet `Get "AAA" "BBB"` returns the derived reciprocal `1/4` (from
`fiatToCrypto["BBB"]["AAA"] = 4`, reached through the crypto-base branch)
instead of the direct rate 5 — a derived rate shadows a direct one. -/
theorem get_direct_preference_cex :
    hasEntry c4cex.fiatToCrypto "AAA" "BBB" = true ∧
    MCache.Get c4cex "AAA" "BBB" =
      .ok ⟨⟨"", "AAA", .Crypto⟩, ⟨"", "BBB", .Fiat⟩, 1 / 4⟩ ∧
    MCache.Get c4cex "AAA" "BBB" ≠
      .ok ⟨⟨"", "AAA", .Fiat⟩, ⟨"", "BBB", .Crypto⟩, 5⟩ :=
  ⟨rfl, rfl, by decide⟩

/-- C4 amended: a direct `cryptoToFiat[from][to]` entry is always returned as
is; a direct `fiatToCrypto[from][to]` entry is returned as is provided `from`
is not a base key of `cryptoToFiat` (otherwise the crypto-base branch — and
in particular its reciprocal derivation via `fiatToCrypto[to][from]` — takes
precedence over the direct fiat-base entry). -/
theorem get_direct_preference (m : MCache) (from_ to_ : String) (rm : RatesMap) (rate : ℚ) :
    (List.lookup (toUpper from_) m.cryptoToFiat = some rm →
      List.lookup (toUpper to_) rm = some rate →
      MCache.Get m from_ to_ =
        .ok ⟨⟨"", toUpper from_, .Crypto⟩, ⟨"", toUpper to_, .Fiat⟩, rate⟩) ∧
    (List.lookup (toUpper from_) m.cryptoToFiat = none →
      List.lookup (toUpper from_) m.fiatToCrypto = some rm →
      List.lookup (toUpper to_) rm = some rate →
      MCache.Get m from_ to_ =
        .ok ⟨⟨"", toUpper from_, .Fiat⟩, ⟨"", toUpper to_, .Crypto⟩, rate⟩) := by
  constructor
  · intro hm hr
    simp only [MCache.Get, c2fLookup, hm, hr]
  · intro hnc hm hr
    simp only [MCache.Get, c2fLookup, f2cLookup, hnc, hm, hr]

/-- Witness for the amended C4 at a concrete cache. -/
theorem get_direct_preference_witness :
    List.lookup (toUpper "USD") (MCache.mk [] [("USD", [("BTC", 2)])]).cryptoToFiat = none ∧
    List.lookup (toUpper "USD") (MCache.mk [] [("USD", [("BTC", 2)])]).fiatToCrypto =
      some [("BTC", 2)] ∧
    MCache.Get ⟨[], [("USD", [("BTC", 2)])]⟩ "USD" "BTC" =
      .ok ⟨⟨"", toUpper "USD", .Fiat⟩, ⟨"", toUpper "BTC", .Crypto⟩, 2⟩ :=
  ⟨by decide, by decide,
   (get_direct_preference ⟨[], [("USD", [("BTC", 2)])]⟩ "USD" "BTC" [("BTC", 2)] 2).2
     (by decide) (by decide) (by decide)⟩

/-- Helper for C6: when the C2F branch has neither a direct `[f][t]` hit nor a
derivable `fiatToCrypto[t][f]` entry, it falls through. -/
theorem c2fLookup_eq_none (m : MCache) (f t : String)
    (h1 : hasEntry m.cryptoToFiat f t = false)
    (h2 : hasEntry m.fiatToCrypto t f = false) :
    c2fLookup m f t = none := by
  unfold hasEntry at h1 h2
  unfold c2fLookup
  cases hc : List.lookup f m.cryptoToFiat with
  | none => rfl
  | some rm =>
    simp only [hc] at h1 ⊢
    cases ht : List.lookup t rm with
    | some r => simp [ht] at h1
    | none =>
      simp only [ht]
      cases hf : List.lookup t m.fiatToCrypto with
      | none => simp
      | some fm =>
        simp only [hf] at h2 ⊢
        cases hr : List.lookup f fm with
        | some r => simp [hr] at h2
        | none => simp [hr]

/-- Helper for C6: when the F2C branch has neither a direct `[f][t]` hit nor a
derivable `cryptoToFiat[t][f]` entry, it falls through. -/
theorem f2cLookup_eq_none (m : MCache) (f t : String)
    (h1 : hasEntry m.fiatToCrypto f t = false)
    (h2 : hasEntry m.cryptoToFiat t f = false) :
    f2cLookup m f t = none := by
  unfold hasEntry at h1 h2
  unfold f2cLookup
  cases hc : List.lookup f m.fiatToCrypto with
  | none => rfl
  | some rm =>
    simp only [hc] at h1 ⊢
    cases ht : List.lookup t rm with
    | some r => simp [ht] at h1
    | none =>
      simp only [ht]
      cases hf : List.lookup t m.cryptoToFiat with
      | none => simp
      | some fm =>
        simp only [hf] at h2 ⊢
        cases hr : List.lookup f fm with
        | some r => simp [hr] at h2
        | none => simp [hr]

/-- C6: when (after upper-casing) neither a direct entry `[from][to]` nor a
reciprocal-derivable entry `[to][from]` exists in either table, `Get` fails
with the error naming both symbols and returns no rate. -/
theorem get_unknown_pair (m : MCache) (from_ to_ : String)
    (h1 : hasEntry m.cryptoToFiat (toUpper from_) (toUpper to_) = false)
    (h2 : hasEntry m.fiatToCrypto (toUpper from_) (toUpper to_) = false)
    (h3 : hasEntry m.fiatToCrypto (toUpper to_) (toUpper from_) = false)
    (h4 : hasEntry m.cryptoToFiat (toUpper to_) (toUpper from_) = false) :
    MCache.Get m from_ to_ =
      .error ("invalid conversion for pair: " ++ toUpper from_ ++ "/" ++ toUpper to_) := by
  simp only [MCache.Get, c2fLookup_eq_none m _ _ h1 h3, f2cLookup_eq_none m _ _ h2 h4]

/-- Witness for C6 at a concrete cache and an unknown pair. -/
theorem get_unknown_pair_witness :
    hasEntry (MCache.mk [("BTC", [("USD", 50000)])] [("USD", [("BTC", 2)])]).cryptoToFiat
      (toUpper "BTC") (toUpper "JPY") = false ∧
    MCache.Get ⟨[("BTC", [("USD", 50000)])], [("USD", [("BTC", 2)])]⟩ "BTC" "JPY" =
      .error ("invalid conversion for pair: " ++ toUpper "BTC" ++ "/" ++ toUpper "JPY") :=
  ⟨by decide,
   get_unknown_pair ⟨[("BTC", [("USD", 50000)])], [("USD", [("BTC", 2)])]⟩ "BTC" "JPY"
     (by decide) (by decide) (by decide) (by decide)⟩

/-- `service.LookUp`: the two tables and the two per-pass errors returned by
`GetAllRates`. -/
structure LookUp where
  FiatToCrypto : RateTable
  CryptoToFiat : RateTable
  FiatLookupErr : Option String
  CryptoLookupErr : Option String

/-- `MCache.loadAndCache` (cache.go lines 121-146).  The persistence load and
the exchange client are external collaborators, passed in as the outcome of
`persistenceStorage.Load` (fiat list and crypto list, or a load error) and as
the function computing `GetAllRates` on the loaded catalog.  Returns the
cache state after the call together with the returned error: on any failure
the incoming state is returned untouched, on success both tables are
replaced by the ones from the lookup. -/
def MCache.loadAndCache (loadResult : Except String (List Currency × List Currency))
    (getAllRates : List Currency → List Currency → LookUp)
    (m : MCache) : MCache × Option String :=
  match loadResult with
  | .error err => (m, some err)
  | .ok (fiats, cryptos) =>
    let lookup := getAllRates cryptos fiats
    match lookup.CryptoLookupErr with
    | some err => (m, some err)
    | none =>
      match lookup.FiatLookupErr with
      | some err => (m, some err)
      | none => (⟨lookup.CryptoToFiat, lookup.FiatToCrypto⟩, none)

/-- C2: a refresh that fails for any reason (catalog load error, crypto pass
error, or fiat pass error) reports the error and leaves both rate tables
exactly as they were; a successful refresh replaces both tables with the
newly built ones and reports no error. -/
theorem loadAndCache_atomic (loadResult : Except String (List Currency × List Currency))
    (getAllRates : List Currency → List Currency → LookUp) (m : MCache) :
    ((MCache.loadAndCache loadResult getAllRates m).2.isSome →
      (MCache.loadAndCache loadResult getAllRates m).1 = m) ∧
    (∀ err, loadResult = .error err →
      MCache.loadAndCache loadResult getAllRates m = (m, some err)) ∧
    (∀ fiats cryptos, loadResult = .ok (fiats, cryptos) →
      ((getAllRates cryptos fiats).CryptoLookupErr.isSome ∨
        (getAllRates cryptos fiats).FiatLookupErr.isSome) →
      (MCache.loadAndCache loadResult getAllRates m).2.isSome ∧
        (MCache.loadAndCache loadResult getAllRates m).1 = m) ∧
    (∀ fiats cryptos, loadResult = .ok (fiats, cryptos) →
      (getAllRates cryptos fiats).CryptoLookupErr = none →
      (getAllRates cryptos fiats).FiatLookupErr = none →
      MCache.loadAndCache loadResult getAllRates m =
        (⟨(getAllRates cryptos fiats).CryptoToFiat,
          (getAllRates cryptos fiats).FiatToCrypto⟩, none)) := by
  refine ⟨?_, ?_, ?_, ?_⟩
  · intro hs
    unfold MCache.loadAndCache at *
    cases hl : loadResult with
    | error err => simp [hl]
    | ok p =>
      obtain ⟨fiats, cryptos⟩ := p
      simp only [hl] at hs ⊢
      cases hc : (getAllRates cryptos fiats).CryptoLookupErr with
      | some err => simp [hc]
      | none =>
        simp only [hc] at hs ⊢
        cases hf : (getAllRates cryptos fiats).FiatLookupErr with
        | some err => simp [hf]
        | none => simp [hf] at hs
  · intro err hl
    unfold MCache.loadAndCache
    simp [hl]
  · intro fiats cryptos hl herr
    unfold MCache.loadAndCache
    simp only [hl]
    cases hc : (getAllRates cryptos fiats).CryptoLookupErr with
    | some err => simp [hc]
    | none =>
      cases hf : (getAllRates cryptos fiats).FiatLookupErr with
      | some err => simp [hc, hf]
      | none =>
        rw [hc, hf] at herr
        simp at herr
  · intro fiats cryptos hl hc hf
    unfold MCache.loadAndCache
    simp [hl, hc, hf]

/-- Witness for C2: a failed refresh (crypto pass error) keeps the tables, a
successful one replaces them. -/
theorem loadAndCache_atomic_witness :
    MCache.loadAndCache (.ok ([], []))
        (fun _ _ => ⟨[], [], none, some "boom"⟩) c1cex = (c1cex, some "boom") ∧
    MCache.loadAndCache (.ok ([], []))
        (fun _ _ => ⟨[("USD", [("BTC", 2)])], [("BTC", [("USD", 50000)])], none, none⟩)
        c1cex =
      (⟨[("BTC", [("USD", 50000)])], [("USD", [("BTC", 2)])]⟩, none) := by
  constructor
  · have h := (loadAndCache_atomic (.ok ([], []))
      (fun _ _ => ⟨[], [], none, some "boom"⟩) c1cex).2.2.1 [] [] rfl (Or.inl rfl)
    have h2 : (MCache.loadAndCache (.ok ([], []))
        (fun _ _ => LookUp.mk [] [] none (some "boom")) c1cex).2 = some "boom" := rfl
    obtain ⟨hs, he⟩ := h
    rw [Prod.ext_iff]
    exact ⟨he, h2⟩
  · exact (loadAndCache_atomic (.ok ([], []))
      (fun _ _ => ⟨[("USD", [("BTC", 2)])], [("BTC", [("USD", 50000)])], none, none⟩)
      c1cex).2.2.2 [] [] rfl rfl rfl

/-- `forex.Response`: the decoded body of the single-rate endpoint.  The JSON
field `result` decodes into `Results`. -/
structure Response where
  Base : String
  Results : List (String × ℚ)
  Updated : String
  Ms : Int

/-- `client.GetRate` (forex.go lines 103-138).  The HTTP round trip through
`client.Do` is an external collaborator, passed in as its outcome: either a
transport/status/decode error or the decoded `Response`.  On success the
result takes the response's base symbol tagged Fiat, the requested `to`
symbol tagged Crypto, and `r.Results[to]` — Go map indexing, which yields
the zero value 0 when the key is absent. -/
def GetRate (doResult : Except String Response) (from_ to_ : String) :
    Except String ExchangeRate :=
  match doResult with
  | .error err => .error err
  | .ok r =>
    .ok ⟨⟨"", r.Base, .Fiat⟩, ⟨"", to_, .Crypto⟩, (List.lookup to_ r.Results).getD 0⟩

/-- C10: when the provider call succeeds but the decoded results map has no
entry for the requested `to` symbol, `GetRate` returns no error and an
`ExchangeRate` whose rate is the map's zero value 0, base tagged Fiat and
target tagged Crypto. -/
theorem getRate_missing_target (r : Response) (from_ to_ : String)
    (h : List.lookup to_ r.Results = none) :
    GetRate (.ok r) from_ to_ =
      .ok ⟨⟨"", r.Base, .Fiat⟩, ⟨"", to_, .Crypto⟩, 0⟩ := by
  simp [GetRate, h]

/-- Witness for C10 at a concrete response that lacks the `"BTC"` key. -/
theorem getRate_missing_target_witness :
    List.lookup "BTC" (Response.mk "USD" [("EUR", 1)] "" 0).Results = none ∧
    GetRate (.ok ⟨"USD", [("EUR", 1)], "", 0⟩) "USD" "BTC" =
      .ok ⟨⟨"", "USD", .Fiat⟩, ⟨"", "BTC", .Crypto⟩, 0⟩ :=
  ⟨by decide, getRate_missing_target ⟨"USD", [("EUR", 1)], "", 0⟩ "USD" "BTC" (by decide)⟩

/-- The merge step of `client.mergeResults` (forex.go lines 274-287) for one
received `ExchangeRate`: create the inner map if the base symbol is new,
otherwise assign into it. -/
def mergeFold (storage : RateTable) (er : ExchangeRate) : RateTable :=
  match List.lookup er.Base.Symbol storage with
  | none => mapInsert storage er.Base.Symbol [(er.Target.Symbol, er.Rate)]
  | some inner => mapInsert storage er.Base.Symbol (mapInsert inner er.Target.Symbol er.Rate)

/-- The `for { select { ... } }` loop of `client.mergeResults` (forex.go lines
269-288).  `events` is the list of values received before the channel is
closed, `fuel` is the number of loop iterations until `ctx.Done()` becomes
the selected case (the 3-second merge deadline).  Faithful to the source,
the `!isOpen` arm executes `break`, which in Go exits only the `select`
statement, not the `for` loop: the loop runs again on the already-closed
channel.  Returns the accumulated table and the number of iterations
executed. -/
def mergeResults : Nat → List ExchangeRate → RateTable → RateTable × Nat
  | 0, _, storage => (storage, 0)
  | fuel + 1, [], storage =>
    let r := mergeResults fuel [] storage
    (r.1, r.2 + 1)
  | fuel + 1, er :: rest, storage =>
    let r := mergeResults fuel rest (mergeFold storage er)
    (r.1, r.2 + 1)

/-- C7: on an exhausted, closed channel `mergeResults` does NOT return: the
`break` in the closed-channel arm exits only the `select`, so the loop keeps
re-selecting on the closed channel and terminates solely when the merge
deadline (`fuel`) fires — it always consumes the entire deadline budget,
whatever was delivered on the channel. -/
theorem mergeResults_deadline_spin (fuel : Nat) (events : List ExchangeRate)
    (storage : RateTable) :
    (mergeResults fuel events storage).2 = fuel ∧
    mergeResults fuel [] storage = (storage, fuel) := by
  constructor
  · induction fuel generalizing events storage with
    | zero => rfl
    | succ n ih =>
      cases events with
      | nil => simp [mergeResults, ih]
      | cons er rest => simp [mergeResults, ih]
  · induction fuel with
    | zero => rfl
    | succ n ih => simp [mergeResults, ih]

/-- The `ExchangeRate` that `GetRate` produces for a fiat request whose
response lacks the target symbol: rate 0. -/
def zeroRateER : ExchangeRate :=
  ⟨⟨"", "USD", .Fiat⟩, ⟨"", "BTC", .Crypto⟩, 0⟩

/-- C3 at the failing input: the fetch layer produces a rate of 0 (missing
target key in the provider response), and `mergeResults` stores it into the
table without any positivity check — the resulting table holds the entry
`["USD"]["BTC"] = 0`, which the spec forbids. -/
theorem merge_stores_zero_rate :
    GetRate (.ok ⟨"USD", [], "", 0⟩) "USD" "BTC" = .ok zeroRateER ∧
    List.lookup "BTC" ((List.lookup "USD" (mergeResults 2 [zeroRateER] []).1).getD []) =
      some 0 ∧
    hasEntry (mergeResults 2 [zeroRateER] []).1 "USD" "BTC" = true :=
  ⟨rfl, rfl, rfl⟩

/-- `batchSize` in `client.getCryptoRates` (forex.go line 191): "api allows
10, but is broken". -/
def batchSize : Nat := 1

/-- The chunking loop of `client.getCryptoRates` (forex.go lines 225-254),
reduced to the `[start, end)` ranges handed to the workers.  The first
argument is the remaining `batchNum`, then `leftToProcess`, then the current
`end` (the next `start` is the previous `end`).  Each iteration takes a
`batchSize` chunk while more than `batchSize` elements remain, otherwise the
remaining elements, and decrements `leftToProcess` by `batchSize`. -/
def batchRanges : Nat → Nat → Nat → List (Nat × Nat)
  | 0, _, _ => []
  | bn + 1, leftToProcess, end_ =>
    let e := if leftToProcess > batchSize then end_ + batchSize else end_ + leftToProcess
    (end_, e) :: batchRanges bn (leftToProcess - batchSize) e

/-- The worker ranges `getCryptoRates` builds for an input of `n` symbols:
`batchNum = ceil(n / batchSize)` iterations starting from `start = end = 0`
(in ℕ, `ceil(n / b) = (n + b - 1) / b`). -/
def getCryptoRatesRanges (n : Nat) : List (Nat × Nat) :=
  batchRanges ((n + batchSize - 1) / batchSize) n 0

/-- Helper for C9: with `batchSize = 1`, as long as at least `bn` elements
remain, the loop emits `bn` consecutive singleton ranges. -/
theorem batchRanges_singleton (bn : Nat) :
    ∀ leftToProcess end_, bn ≤ leftToProcess →
      batchRanges bn leftToProcess end_ =
        (List.range' end_ bn).map (fun i => (i, i + 1)) := by
  induction bn with
  | zero =>
    intro leftToProcess end_ _
    rfl
  | succ k ih =>
    intro leftToProcess end_ h
    unfold batchRanges
    by_cases hgt : leftToProcess > batchSize
    · simp only [if_pos hgt]
      have hb : batchSize = 1 := rfl
      rw [hb, ih (leftToProcess - 1) (end_ + 1) (by omega), List.range'_succ]
      simp
    · have hb : batchSize = 1 := rfl
      rw [hb] at hgt
      have hl : leftToProcess = 1 := by omega
      have hk : k = 0 := by omega
      subst hl hk
      simp [List.range'_succ, batchRanges, batchSize]

/-- C9: for an input list of length `n` the chunking loop launches exactly
`n` workers, whose ranges are the singleton chunks `[i, i+1)` for
`i = 0, …, n-1` — disjoint, covering the whole input, one pair per provider
call. -/
theorem getCryptoRates_singleton_chunks (n : Nat) :
    getCryptoRatesRanges n = (List.range n).map (fun i => (i, i + 1)) ∧
    (getCryptoRatesRanges n).length = n := by
  have hb : batchSize = 1 := rfl
  have h : getCryptoRatesRanges n = batchRanges n n 0 := by
    unfold getCryptoRatesRanges
    rw [hb]
    simp
  rw [h, batchRanges_singleton n n 0 (le_refl n), ← List.range_eq_range']
  simp

/-- Looking up the key just assigned by `mapInsert` yields the new value. -/
theorem lookup_mapInsert_self (m : List (String × α)) (k : String) (v : α) :
    List.lookup k (mapInsert m k v) = some v := by
  simp [mapInsert, List.lookup]

/-- Dropping the bindings of key `k` does not change lookups of other keys. -/
theorem lookup_filter_ne (m : List (String × α)) (k k' : String) (h : k' ≠ k) :
    List.lookup k' (m.filter (fun p => p.1 ≠ k)) = List.lookup k' m := by
  induction m with
  | nil => rfl
  | cons p rest ih =>
    obtain ⟨pk, pv⟩ := p
    by_cases hp : pk = k
    · have hcond : (decide ((pk, pv).1 ≠ k)) = false := by simp [hp]
      have h2 : (k' == pk) = false := by simp [hp, h]
      rw [List.filter_cons, hcond]
      simp only [Bool.false_eq_true, if_false, ih, List.lookup, h2]
    · have hcond : (decide ((pk, pv).1 ≠ k)) = true := by simp [hp]
      rw [List.filter_cons, hcond]
      by_cases hk2 : k' = pk
      · simp [List.lookup, hk2]
      · have h2 : (k' == pk) = false := by simp [hk2]
        simp only [List.lookup, h2]
        exact ih

/-- `mapInsert` leaves the binding of every other key unchanged. -/
theorem lookup_mapInsert_ne (m : List (String × α)) (k k' : String) (v : α)
    (h : k' ≠ k) :
    List.lookup k' (mapInsert m k v) = List.lookup k' m := by
  have h2 : (k' == k) = false := by simp [h]
  simp only [mapInsert, List.lookup, h2]
  exact lookup_filter_ne m k k' h

/-- The inner `for _, crypto := range cryptos` loop of `client.GetAllRates`
(forex.go lines 368-375) for one fiat: appends one `"CRYPTO/FIAT"` combo per
crypto and re-assigns `fiatTargets[fiat.Symbol]` to each crypto in turn. -/
def comboInner (fiat : Currency) :
    List Currency → List String × List (String × String) →
      List String × List (String × String)
  | [], acc => acc
  | crypto :: rest, acc =>
    comboInner fiat rest
      (acc.1 ++ [crypto.Symbol ++ "/" ++ fiat.Symbol],
       mapInsert acc.2 fiat.Symbol crypto.Symbol)

/-- The outer `for _, fiat := range fiats` loop of `client.GetAllRates`. -/
def comboOuter (cryptos : List Currency) :
    List Currency → List String × List (String × String) →
      List String × List (String × String)
  | [], acc => acc
  | fiat :: rest, acc => comboOuter cryptos rest (comboInner fiat cryptos acc)

/-- The `cryptoCombos` slice built by `client.GetAllRates`. -/
def cryptoCombos (cryptos fiats : List Currency) : List String :=
  (comboOuter cryptos fiats ([], [])).1

/-- The `fiatTargets` map built by `client.GetAllRates`. -/
def fiatTargets (cryptos fiats : List Currency) : List (String × String) :=
  (comboOuter cryptos fiats ([], [])).2

/-- One fiat's inner loop appends exactly one combo per crypto. -/
theorem comboInner_fst (fiat : Currency) (cs : List Currency)
    (acc : List String × List (String × String)) :
    (comboInner fiat cs acc).1 =
      acc.1 ++ cs.map (fun c => c.Symbol ++ "/" ++ fiat.Symbol) := by
  induction cs generalizing acc with
  | nil => simp [comboInner]
  | cons c rest ih => simp [comboInner, ih]

/-- After one fiat's inner loop, the target bound to that fiat's symbol is the
last crypto of a non-empty crypto list. -/
theorem comboInner_snd_self (fiat : Currency) (cs : List Currency)
    (acc : List String × List (String × String)) (h : cs ≠ []) :
    List.lookup fiat.Symbol (comboInner fiat cs acc).2 =
      cs.getLast?.map (fun c => c.Symbol) := by
  induction cs generalizing acc with
  | nil => exact absurd rfl h
  | cons c rest ih =>
    cases rest with
    | nil =>
      simp [comboInner, lookup_mapInsert_self]
    | cons c' rest' =>
      rw [show comboInner fiat (c :: c' :: rest') acc =
        comboInner fiat (c' :: rest')
          (acc.1 ++ [c.Symbol ++ "/" ++ fiat.Symbol],
           mapInsert acc.2 fiat.Symbol c.Symbol) from rfl]
      rw [ih _ (by simp)]
      simp [List.getLast?]

/-- One fiat's inner loop does not touch the binding of any other key. -/
theorem comboInner_snd_ne (fiat : Currency) (cs : List Currency)
    (acc : List String × List (String × String)) (k : String)
    (h : k ≠ fiat.Symbol) :
    List.lookup k (comboInner fiat cs acc).2 = List.lookup k acc.2 := by
  induction cs generalizing acc with
  | nil => rfl
  | cons c rest ih =>
    rw [show comboInner fiat (c :: rest) acc =
      comboInner fiat rest
        (acc.1 ++ [c.Symbol ++ "/" ++ fiat.Symbol],
         mapInsert acc.2 fiat.Symbol c.Symbol) from rfl]
    rw [ih]
    exact lookup_mapInsert_ne _ _ _ _ h

/-- The outer loop appends, fiat by fiat, the full crypto×fiat cross product
of combo strings. -/
theorem comboOuter_fst (cryptos fs : List Currency)
    (acc : List String × List (String × String)) :
    (comboOuter cryptos fs acc).1 =
      acc.1 ++
        (fs.map (fun fiat =>
          cryptos.map (fun c => c.Symbol ++ "/" ++ fiat.Symbol))).flatten := by
  induction fs generalizing acc with
  | nil => simp [comboOuter]
  | cons fiat rest ih =>
    rw [show comboOuter cryptos (fiat :: rest) acc =
      comboOuter cryptos rest (comboInner fiat cryptos acc) from rfl]
    rw [ih, comboInner_fst]
    simp

/-- Keys not named by any processed fiat keep their binding across the outer
loop. -/
theorem comboOuter_snd_ne (cryptos fs : List Currency)
    (acc : List String × List (String × String)) (k : String)
    (h : ∀ f ∈ fs, f.Symbol ≠ k) :
    List.lookup k (comboOuter cryptos fs acc).2 = List.lookup k acc.2 := by
  induction fs generalizing acc with
  | nil => rfl
  | cons fiat rest ih =>
    rw [show comboOuter cryptos (fiat :: rest) acc =
      comboOuter cryptos rest (comboInner fiat cryptos acc) from rfl]
    rw [ih _ (fun f hf => h f (List.mem_cons_of_mem _ hf))]
    exact comboInner_snd_ne _ _ _ _ (fun he => h fiat (List.mem_cons_self _ _) he.symm)

/-- Every key named by some processed fiat ends up bound to the last crypto's
symbol. -/
theorem comboOuter_snd_mem (cryptos : List Currency) (hc : cryptos ≠ [])
    (fs : List Currency) (acc : List String × List (String × String)) (k : String)
    (h : ∃ f ∈ fs, f.Symbol = k) :
    List.lookup k (comboOuter cryptos fs acc).2 =
      cryptos.getLast?.map (fun c => c.Symbol) := by
  induction fs generalizing acc with
  | nil => simp at h
  | cons fiat rest ih =>
    rw [show comboOuter cryptos (fiat :: rest) acc =
      comboOuter cryptos rest (comboInner fiat cryptos acc) from rfl]
    by_cases hrest : ∃ f ∈ rest, f.Symbol = k
    · exact ih _ hrest
    · have hfk : fiat.Symbol = k := by
        rcases h with ⟨f, hf, hfk⟩
        rcases List.mem_cons.mp hf with rfl | hmem
        · exact hfk
        · exact absurd ⟨f, hmem, hfk⟩ hrest
      rw [comboOuter_snd_ne cryptos rest _ k
        (fun f hf he => hrest ⟨f, hf, he⟩)]
      rw [← hfk]
      exact comboInner_snd_self fiat cryptos acc hc

/-- C8: for non-empty fiat and crypto lists, `GetAllRates` builds (a) the
combo list holding exactly one `"CRYPTO/FIAT"` string per element of the
crypto×fiat cross product, and (b) a fiat-targets map binding every fiat
symbol to the symbol of the LAST crypto in the list (earlier cryptos are
overwritten). -/
theorem getAllRates_builds_combos (cryptos fiats : List Currency)
    (hc : cryptos ≠ []) (hf : fiats ≠ []) :
    cryptoCombos cryptos fiats =
      (fiats.map (fun fiat =>
        cryptos.map (fun c => c.Symbol ++ "/" ++ fiat.Symbol))).flatten ∧
    (cryptoCombos cryptos fiats).length = cryptos.length * fiats.length ∧
    ∀ fiat ∈ fiats,
      List.lookup fiat.Symbol (fiatTargets cryptos fiats) =
        some ((cryptos.getLast hc).Symbol) := by
  have h1 : cryptoCombos cryptos fiats =
      (fiats.map (fun fiat =>
        cryptos.map (fun c => c.Symbol ++ "/" ++ fiat.Symbol))).flatten := by
    unfold cryptoCombos
    rw [comboOuter_fst]
    simp
  refine ⟨h1, ?_, ?_⟩
  · rw [h1]
    simp [List.length_flatten, Function.comp_def, List.map_const']
    exact Nat.mul_comm _ _
  · intro fiat hmem
    unfold fiatTargets
    rw [comboOuter_snd_mem cryptos hc fiats _ _ ⟨fiat, hmem, rfl⟩]
    rw [List.getLast?_eq_getLast _ hc]
    simp

/-- Witness for C8 at a concrete catalog of two fiats and two cryptos. -/
theorem getAllRates_builds_combos_witness :
    cryptoCombos [⟨"Bitcoin", "BTC", .Crypto⟩, ⟨"Ether", "ETH", .Crypto⟩]
        [⟨"Dollar", "USD", .Fiat⟩, ⟨"Euro", "EUR", .Fiat⟩] =
      ["BTC/USD", "ETH/USD", "BTC/EUR", "ETH/EUR"] ∧
    List.lookup "USD"
        (fiatTargets [⟨"Bitcoin", "BTC", .Crypto⟩, ⟨"Ether", "ETH", .Crypto⟩]
          [⟨"Dollar", "USD", .Fiat⟩, ⟨"Euro", "EUR", .Fiat⟩]) = some "ETH" := by
  have h := getAllRates_builds_combos
    [⟨"Bitcoin", "BTC", .Crypto⟩, ⟨"Ether", "ETH", .Crypto⟩]
    [⟨"Dollar", "USD", .Fiat⟩, ⟨"Euro", "EUR", .Fiat⟩]
    (by decide) (by decide)
  refine ⟨?_, ?_⟩
  · rw [h.1]
    rfl
  · have := h.2.2 ⟨"Dollar", "USD", .Fiat⟩ (by simp)
    rw [this]
    rfl
